import Mathlib

/-!
Verification of the spatially-indexed point-dataset partitioning and
range-query system described by the repository's specification and
demonstrated by the notebook `examples/user_guide/2_Points.ipynb`.

The notebook only calls the library's public API (`to_parquet`,
`read_parquet`, `spatial_query`); the implementation of the spatial
index itself is not part of the supplied sources, so the components
below are modelled from the specification's component design
(Curve Mapper, Partitioner/Sorter, Persistent Store Writer, Indexed
Frame Reader, Range Query Planner) and the theorems are proved
against that model.
-/

namespace DSPoints

/-- A data point: numeric x and y coordinates plus a payload column
(the notebook's `val`/`cat` columns, collapsed to one field). -/
structure Point where
  x : Int
  y : Int
  payload : Nat
deriving DecidableEq, Repr

/-- Declared global coordinate bounds of the dataset's domain. -/
structure Bounds where
  xmin : Int
  xmax : Int
  ymin : Int
  ymax : Int
deriving DecidableEq, Repr

/-- Axis-aligned bounding box of a set of points. -/
structure BBox where
  xmin : Int
  xmax : Int
  ymin : Int
  ymax : Int
deriving DecidableEq, Repr

/-- Caller-supplied query rectangle. -/
structure Rect where
  xmin : Int
  xmax : Int
  ymin : Int
  ymax : Int
deriving DecidableEq, Repr

/-- Modelled from the spec: the error taxonomy of section 7 (the
implementation of the error type is not in the supplied sources). -/
inductive SpatialError where
  | InvalidPartitionCount
  | EmptyDataset
  | OutOfBounds
  | CorruptMetadata
  | IncompleteWrite
  | IOFailure
deriving DecidableEq, Repr

/-- Configuration choice for coordinates outside the declared bounds:
clamp to the nearest boundary, or fail with OutOfBounds. -/
inductive OOBPolicy where
  | clamp
  | fail
deriving DecidableEq, Repr

/-- Clamp a value into the closed interval from lo to hi. -/
def clampTo (lo hi v : Int) : Int := max lo (min hi v)

/-- The coordinate pair lies within the declared global bounds. -/
def inBounds (b : Bounds) (x y : Int) : Prop :=
  b.xmin ≤ x ∧ x ≤ b.xmax ∧ b.ymin ≤ y ∧ y ≤ b.ymax

instance (b : Bounds) (x y : Int) : Decidable (inBounds b x y) :=
  inferInstanceAs (Decidable (_ ∧ _ ∧ _ ∧ _))

/-- Modelled from the spec: the Curve Mapper's locality-preserving
1D index of a 2D coordinate (the space-filling-curve implementation is
not in the supplied sources); offsets from the lower bounds are merged
with the standard pairing function. Deterministic and total. -/
def curveIndex (b : Bounds) (x y : Int) : Nat :=
  Nat.pair (x - b.xmin).toNat (y - b.ymin).toNat

/-- Modelled from the spec: the Curve Mapper entry point.  A point
outside the declared bounds is clamped to the nearest boundary or
rejected with OutOfBounds, as selected by the configured policy. -/
def curveMap (pol : OOBPolicy) (b : Bounds) (x y : Int) :
    Except SpatialError Nat :=
  if inBounds b x y then
    .ok (curveIndex b x y)
  else
    match pol with
    | .clamp => .ok (curveIndex b (clampTo b.xmin b.xmax x) (clampTo b.ymin b.ymax y))
    | .fail => .error .OutOfBounds

/-- Curve index of a point, as used by the Partitioner/Sorter. -/
def curveKey (b : Bounds) (p : Point) : Nat := curveIndex b p.x p.y

/-- Insert a point into a list sorted by curve index. -/
def insertByKey (b : Bounds) (p : Point) : List Point → List Point
  | [] => [p]
  | q :: qs =>
    if curveKey b p ≤ curveKey b q then p :: q :: qs
    else q :: insertByKey b p qs

/-- Modelled from the spec: sort the point collection by curve index
(numeric order; stability not required). -/
def sortByCurve (b : Bounds) : List Point → List Point
  | [] => []
  | p :: ps => insertByKey b p (sortByCurve b ps)

/-- Sizes of the n contiguous groups for a list of the given length:
as equal as possible, remainder distributed to the earliest groups. -/
def splitSizes (len n : Nat) : List Nat :=
  (List.range n).map (fun i => len / n + if i < len % n then 1 else 0)

/-- Split a list into contiguous groups of the given sizes. -/
def splitBySizes : List Nat → List Point → List (List Point)
  | [], _ => []
  | s :: ss, pts => pts.take s :: splitBySizes ss (pts.drop s)

/-- Modelled from the spec: the Partitioner/Sorter.  Fails with
InvalidPartitionCount when the requested count is nonpositive and with
EmptyDataset when the input is empty; otherwise sorts by curve index
and splits into n contiguous groups. -/
def partitionPoints (b : Bounds) (pts : List Point) (n : Int) :
    Except SpatialError (List (List Point)) :=
  if n ≤ 0 then .error .InvalidPartitionCount
  else if pts.isEmpty then .error .EmptyDataset
  else
    let sorted := sortByCurve b pts
    .ok (splitBySizes (splitSizes sorted.length n.toNat) sorted)

/-- Degenerate bounding box of a single point. -/
def bboxOfPoint (p : Point) : BBox := ⟨p.x, p.x, p.y, p.y⟩

/-- Union of two bounding boxes: the smallest box containing both. -/
def bboxUnion (a c : BBox) : BBox :=
  ⟨min a.xmin c.xmin, max a.xmax c.xmax, min a.ymin c.ymin, max a.ymax c.ymax⟩

/-- Bounding box of a partition, computed by scanning its rows once;
none for an empty partition. -/
def computeBBox : List Point → Option BBox
  | [] => none
  | p :: ps => some (ps.foldl (fun acc q => bboxUnion acc (bboxOfPoint q)) (bboxOfPoint p))

/-- The box contains the point (inclusive bounds). -/
def containsB (bb : BBox) (p : Point) : Prop :=
  bb.xmin ≤ p.x ∧ p.x ≤ bb.xmax ∧ bb.ymin ≤ p.y ∧ p.y ≤ bb.ymax

instance (bb : BBox) (p : Point) : Decidable (containsB bb p) :=
  inferInstanceAs (Decidable (_ ∧ _ ∧ _ ∧ _))

/-- Box a is contained in box c. -/
def boxLe (a c : BBox) : Prop :=
  c.xmin ≤ a.xmin ∧ a.xmax ≤ c.xmax ∧ c.ymin ≤ a.ymin ∧ a.ymax ≤ c.ymax

instance (a c : BBox) : Decidable (boxLe a c) :=
  inferInstanceAs (Decidable (_ ∧ _ ∧ _ ∧ _))

/-- Per-partition metadata record written by the store writer. -/
structure PartitionMeta where
  partition_id : Nat
  row_count : Nat
  bbox : Option BBox
deriving DecidableEq, Repr

/-- Dataset metadata: partition count, global bounding box and the
per-partition records, persisted alongside the data. -/
structure Metadata where
  numPartitions : Nat
  globalBBox : Option BBox
  partMetas : List PartitionMeta
deriving DecidableEq, Repr

/-- The persisted store: one data segment per partition plus the
metadata segment (none while a write is still in progress). -/
structure Store where
  dataSegments : List (List Point)
  meta : Option Metadata
deriving DecidableEq, Repr

/-- Per-partition metadata records for consecutive partitions,
numbering them from i0. -/
def mkMetasAux (i0 : Nat) : List (List Point) → List PartitionMeta
  | [] => []
  | part :: rest => ⟨i0, part.length, computeBBox part⟩ :: mkMetasAux (i0 + 1) rest

/-- Per-partition metadata records, partitions numbered from 0. -/
def mkMetas (parts : List (List Point)) : List PartitionMeta := mkMetasAux 0 parts

/-- Union of optional bounding boxes (none is the empty region). -/
def unionO : Option BBox → Option BBox → Option BBox
  | none, c => c
  | some a, none => some a
  | some a, some c => some (bboxUnion a c)

/-- Global bounding box: the union of all per-partition boxes. -/
def globalOf (metas : List PartitionMeta) : Option BBox :=
  metas.foldl (fun acc m => unionO acc m.bbox) none

/-- Modelled from the spec: the Persistent Store Writer.  Partitions
the input, computes per-partition bounding boxes and row counts, and
persists the data segments together with the metadata record. -/
def writeStore (b : Bounds) (pts : List Point) (n : Int) :
    Except SpatialError Store :=
  match partitionPoints b pts n with
  | .error e => .error e
  | .ok parts =>
    let metas := mkMetas parts
    .ok ⟨parts, some ⟨parts.length, globalOf metas, metas⟩⟩

/-- Modelled from the spec: the state of the store after the first k
steps of the write phase.  The writer persists the data segments one
at a time and writes the metadata record last, so an abort after k
steps leaves the first k segments and no metadata unless every
segment was written first. -/
def storeAfterSteps (parts : List (List Point)) (m : Metadata) (k : Nat) : Store :=
  ⟨parts.take k, if parts.length < k then some m else none⟩

/-- An opened Indexed Frame Reader: the store plus its validated
metadata. -/
structure Reader where
  store : Store
  metadata : Metadata
deriving DecidableEq, Repr

/-- Modelled from the spec: the Indexed Frame Reader's open.  Reads
the metadata segment only and fails with CorruptMetadata when it is
missing or its partition count disagrees with the data files present. -/
def openStore (s : Store) : Except SpatialError Reader :=
  match s.meta with
  | none => .error .CorruptMetadata
  | some m =>
    if m.numPartitions = s.dataSegments.length ∧ m.partMetas.length = m.numPartitions
    then .ok ⟨s, m⟩
    else .error .CorruptMetadata

/-- Global x-range exposed by the reader, computed from metadata only. -/
def xRangeOf (m : Metadata) : Option (Int × Int) :=
  m.globalBBox.map (fun g => (g.xmin, g.xmax))

/-- Global y-range exposed by the reader, computed from metadata only. -/
def yRangeOf (m : Metadata) : Option (Int × Int) :=
  m.globalBBox.map (fun g => (g.ymin, g.ymax))

/-- The reader's x-range property (`sframe.spatial.x_range`). -/
def Reader.x_range (rd : Reader) : Option (Int × Int) := xRangeOf rd.metadata

/-- The reader's y-range property (`sframe.spatial.y_range`). -/
def Reader.y_range (rd : Reader) : Option (Int × Int) := yRangeOf rd.metadata

/-- Inclusive axis-aligned intersection test between a partition's
bounding box and the query rectangle: overlap on both axes, touching
edges count as overlap. -/
def bboxIntersects (bb : BBox) (r : Rect) : Bool :=
  decide (bb.xmin ≤ r.xmax) && decide (r.xmin ≤ bb.xmax) &&
  decide (bb.ymin ≤ r.ymax) && decide (r.ymin ≤ bb.ymax)

/-- Intersection test for an optional bounding box: an empty partition
has no box and is never selected. -/
def intersectsO : Option BBox → Rect → Bool
  | none, _ => false
  | some bb, r => bboxIntersects bb r

/-- The partitions of a reader, each metadata record paired with the
data segment it references. -/
def Reader.partsWithMeta (rd : Reader) : List (PartitionMeta × List Point) :=
  rd.metadata.partMetas.zip rd.store.dataSegments

/-- A lazy view: references to the selected partitions; row data is
loaded only on materialization. -/
structure LazyView where
  selected : List (PartitionMeta × List Point)
deriving DecidableEq, Repr

/-- Modelled from the spec: the Range Query Planner
(`spatial_query`).  Selects exactly the partitions whose bounding box
intersects the query rectangle and returns a lazy view over them. -/
def spatial_query (rd : Reader) (r : Rect) : LazyView :=
  ⟨rd.partsWithMeta.filter (fun pr => intersectsO pr.1.bbox r)⟩

/-- Number of partitions referenced by a lazy view. -/
def LazyView.partition_count (v : LazyView) : Nat := v.selected.length

/-- Materialize a lazy view: load and concatenate the selected
partitions' row data. -/
def LazyView.materialize (v : LazyView) : List Point :=
  (v.selected.map (fun pr => pr.2)).flatten

/-- The point's coordinates lie within the query rectangle
(inclusive bounds). -/
def inRect (r : Rect) (p : Point) : Prop :=
  r.xmin ≤ p.x ∧ p.x ≤ r.xmax ∧ r.ymin ≤ p.y ∧ p.y ≤ r.ymax

instance (r : Rect) (p : Point) : Decidable (inRect r p) :=
  inferInstanceAs (Decidable (_ ∧ _ ∧ _ ∧ _))

/-- Pixel bin and category of a point under a canvas restricted to the
given rectangle with w by h bins. -/
def pixelOf (r : Rect) (w h : Nat) (p : Point) : Nat × Nat × Nat :=
  (((p.x - r.xmin).toNat * w) / ((r.xmax - r.xmin).toNat + 1),
   ((p.y - r.ymin).toNat * h) / ((r.ymax - r.ymin).toNat + 1),
   p.payload)

/-- Canvas aggregation restricted to a viewport rectangle: every point
inside the rectangle is binned to a pixel and category; the aggregate
is the multiset of occupied bins (per-bin counts are its
multiplicities), independent of row order. -/
def canvasAgg (r : Rect) (w h : Nat) (pts : List Point) : Multiset (Nat × Nat × Nat) :=
  ((pts.filter (fun p => decide (inRect r p))).map (pixelOf r w h) : List (Nat × Nat × Nat))

/-- The query rectangle covering the full global extent of a box. -/
def fullExtentRect (g : BBox) : Rect := ⟨g.xmin, g.xmax, g.ymin, g.ymax⟩

/-- Bounds used by the concrete six-point scenario. -/
def scenarioBounds : Bounds := ⟨0, 20, -5, 5⟩

/-- The scenario dataset: six points with x in 1, 2, 3, 10, 11, 12,
supplied in shuffled order. -/
def scenarioPts : List Point :=
  [⟨1, 0, 0⟩, ⟨10, 0, 1⟩, ⟨2, 0, 2⟩, ⟨11, 0, 3⟩, ⟨3, 0, 4⟩, ⟨12, 0, 5⟩]

/-- The scenario query rectangle with x range 0 to 4. -/
def scenarioRect : Rect := ⟨0, 4, -5, 5⟩

/-- The scenario's partitions as produced by the Partitioner/Sorter. -/
def scenarioParts : List (List Point) :=
  ((partitionPoints scenarioBounds scenarioPts 2).toOption).getD []

/-- The scenario's persisted store. -/
def scenarioStore : Store :=
  ((writeStore scenarioBounds scenarioPts 2).toOption).getD ⟨[], none⟩

/-- The scenario's opened reader. -/
def scenarioRd : Reader :=
  ((openStore scenarioStore).toOption).getD ⟨⟨[], none⟩, ⟨0, none, []⟩⟩

/-- The scenario's persisted metadata record. -/
def scenarioMeta : Metadata := (scenarioStore.meta).getD ⟨0, none, []⟩

/-- Inserting into the sorted list permutes consing. -/
theorem insertByKey_perm (b : Bounds) (p : Point) (l : List Point) :
    List.Perm (insertByKey b p l) (p :: l) := by
  induction l with
  | nil => exact List.Perm.refl _
  | cons q qs ih =>
    by_cases h : curveKey b p ≤ curveKey b q
    · simp [insertByKey, h]
    · simp only [insertByKey, if_neg h]
      exact (ih.cons q).trans (List.Perm.swap p q qs)

/-- Sorting by curve index permutes the input. -/
theorem sortByCurve_perm (b : Bounds) (l : List Point) :
    List.Perm (sortByCurve b l) l := by
  induction l with
  | nil => exact List.Perm.refl _
  | cons p ps ih =>
    exact (insertByKey_perm b p (sortByCurve b ps)).trans (ih.cons p)

/-- Sum of the first m group sizes with quotient q and remainder r. -/
theorem sum_sizes_range (q r : Nat) :
    ∀ m, (((List.range m).map (fun i => q + if i < r then 1 else 0)).sum)
      = m * q + min r m := by
  intro m
  induction m with
  | zero => simp
  | succ m ih =>
    rw [List.range_succ, List.map_append, List.sum_append, ih]
    by_cases h : m < r
    · simp only [List.map_cons, List.map_nil, if_pos h, List.sum_cons, List.sum_nil]
      rw [Nat.succ_mul]
      omega
    · simp only [List.map_cons, List.map_nil, if_neg h, List.sum_cons, List.sum_nil]
      rw [Nat.succ_mul]
      omega

/-- The group sizes sum to the dataset length. -/
theorem splitSizes_sum (len n : Nat) (hn : 0 < n) : (splitSizes len n).sum = len := by
  unfold splitSizes
  rw [sum_sizes_range]
  have h1 : len % n < n := Nat.mod_lt _ hn
  have h2 := Nat.div_add_mod len n
  omega

/-- Flattening the split recovers a prefix of the list. -/
theorem splitBySizes_flatten (ss : List Nat) (l : List Point) :
    (splitBySizes ss l).flatten = l.take ss.sum := by
  induction ss generalizing l with
  | nil => simp [splitBySizes]
  | cons s ss ih =>
    simp only [splitBySizes, List.flatten_cons, ih, List.sum_cons]
    rw [List.take_add]

/-- The split produces one group per requested size. -/
theorem splitBySizes_length (ss : List Nat) (l : List Point) :
    (splitBySizes ss l).length = ss.length := by
  induction ss generalizing l with
  | nil => simp [splitBySizes]
  | cons s ss ih => simp [splitBySizes, ih]

/-- Characterization of a successful run of the Partitioner/Sorter. -/
theorem partitionPoints_ok (b : Bounds) (pts : List Point) (n : Int)
    (parts : List (List Point)) (h : partitionPoints b pts n = .ok parts) :
    0 < n ∧ pts ≠ [] ∧
      parts = splitBySizes (splitSizes (sortByCurve b pts).length n.toNat) (sortByCurve b pts) := by
  unfold partitionPoints at h
  by_cases h1 : n ≤ 0
  · simp [h1] at h
  · by_cases h2 : pts.isEmpty
    · simp [h1, h2] at h
    · simp only [if_neg h1, if_neg h2, Except.ok.injEq] at h
      refine ⟨by omega, ?_, h.symm⟩
      intro hnil
      exact h2 (by simp [hnil])

/-- The partitions of a successful run flatten to a permutation of
the input point set. -/
theorem partitionPoints_flatten_perm (b : Bounds) (pts : List Point) (n : Int)
    (parts : List (List Point)) (h : partitionPoints b pts n = .ok parts) :
    List.Perm parts.flatten pts := by
  obtain ⟨hn, -, hparts⟩ := partitionPoints_ok b pts n parts h
  rw [hparts, splitBySizes_flatten, splitSizes_sum]
  · rw [List.take_length]
    exact sortByCurve_perm b pts
  · omega

/-- Box containment is transitive. -/
theorem boxLe_trans {a c d : BBox} (h1 : boxLe a c) (h2 : boxLe c d) : boxLe a d := by
  unfold boxLe at *
  omega

/-- A box contained in a larger box keeps its points. -/
theorem containsB_mono {a c : BBox} {p : Point} (h1 : boxLe a c) (h2 : containsB a p) :
    containsB c p := by
  unfold boxLe at h1
  unfold containsB at *
  omega

/-- The first argument is inside the union. -/
theorem bboxUnion_le_left (a c : BBox) : boxLe a (bboxUnion a c) := by
  unfold boxLe bboxUnion
  simp only
  omega

/-- The second argument is inside the union. -/
theorem bboxUnion_le_right (a c : BBox) : boxLe c (bboxUnion a c) := by
  unfold boxLe bboxUnion
  simp only
  omega

/-- The union is the least box containing both arguments. -/
theorem bboxUnion_least {a c d : BBox} (h1 : boxLe a d) (h2 : boxLe c d) :
    boxLe (bboxUnion a c) d := by
  unfold boxLe at *
  unfold bboxUnion
  simp only
  omega

/-- The degenerate box of a point contains it. -/
theorem containsB_bboxOfPoint (p : Point) : containsB (bboxOfPoint p) p := by
  unfold containsB bboxOfPoint
  simp only
  omega

/-- A box contains a point exactly when it contains its degenerate box. -/
theorem containsB_iff_boxLe (bb : BBox) (p : Point) :
    containsB bb p ↔ boxLe (bboxOfPoint p) bb := by
  unfold containsB boxLe bboxOfPoint
  simp only

/-- The bounding-box fold only grows the accumulator. -/
theorem foldl_bbox_grows (l : List Point) :
    ∀ acc : BBox, boxLe acc (l.foldl (fun acc q => bboxUnion acc (bboxOfPoint q)) acc) := by
  induction l with
  | nil =>
    intro acc
    rw [List.foldl_nil]
    unfold boxLe
    omega
  | cons q qs ih =>
    intro acc
    rw [List.foldl_cons]
    exact boxLe_trans (bboxUnion_le_left acc (bboxOfPoint q)) (ih _)

/-- The bounding-box fold contains every scanned point. -/
theorem foldl_bbox_contains (l : List Point) :
    ∀ (acc : BBox) (p : Point), p ∈ l →
      containsB (l.foldl (fun acc q => bboxUnion acc (bboxOfPoint q)) acc) p := by
  induction l with
  | nil => intro acc p hp; simp at hp
  | cons q qs ih =>
    intro acc p hp
    rw [List.foldl_cons]
    rcases List.mem_cons.mp hp with h | h
    · subst h
      refine containsB_mono (foldl_bbox_grows qs _) ?_
      exact containsB_mono (bboxUnion_le_right acc (bboxOfPoint p)) (containsB_bboxOfPoint p)
    · exact ih _ p h

/-- The bounding-box fold stays inside any box containing the
accumulator and all scanned points. -/
theorem foldl_bbox_least (l : List Point) :
    ∀ (acc bb : BBox), boxLe acc bb → (∀ p ∈ l, containsB bb p) →
      boxLe (l.foldl (fun acc q => bboxUnion acc (bboxOfPoint q)) acc) bb := by
  induction l with
  | nil => intro acc bb h _; exact h
  | cons q qs ih =>
    intro acc bb h hall
    rw [List.foldl_cons]
    refine ih _ bb ?_ (fun p hp => hall p (List.mem_cons_of_mem q hp))
    exact bboxUnion_least h ((containsB_iff_boxLe bb q).mp (hall q (List.mem_cons_self q qs)))

/-- The computed bounding box contains every point of the partition. -/
theorem computeBBox_contains (l : List Point) (bb : BBox) (h : computeBBox l = some bb) :
    ∀ p ∈ l, containsB bb p := by
  cases l with
  | nil => simp [computeBBox] at h
  | cons q qs =>
    simp only [computeBBox, Option.some.injEq] at h
    subst h
    intro p hp
    rcases List.mem_cons.mp hp with h | h
    · subst h
      exact containsB_mono (foldl_bbox_grows qs _) (containsB_bboxOfPoint p)
    · exact foldl_bbox_contains qs _ p h

/-- The computed bounding box is minimal: it fits inside every box
containing all the partition's points. -/
theorem computeBBox_least (l : List Point) (bb bb2 : BBox) (h : computeBBox l = some bb)
    (h2 : ∀ p ∈ l, containsB bb2 p) : boxLe bb bb2 := by
  cases l with
  | nil => simp [computeBBox] at h
  | cons q qs =>
    simp only [computeBBox, Option.some.injEq] at h
    subst h
    refine foldl_bbox_least qs _ bb2 ?_ (fun p hp => h2 p (List.mem_cons_of_mem q hp))
    exact (containsB_iff_boxLe bb2 q).mp (h2 q (List.mem_cons_self q qs))

/-- A bounding box is computed exactly for nonempty partitions. -/
theorem computeBBox_some_iff (l : List Point) : (∃ bb, computeBBox l = some bb) ↔ l ≠ [] := by
  cases l with
  | nil => simp [computeBBox]
  | cons q qs => simp [computeBBox]

/-- A computed bounding box is well-formed: its minima do not exceed
its maxima. -/
theorem computeBBox_wf (l : List Point) (bb : BBox) (h : computeBBox l = some bb) :
    bb.xmin ≤ bb.xmax ∧ bb.ymin ≤ bb.ymax := by
  cases l with
  | nil => simp [computeBBox] at h
  | cons q qs =>
    have hc := computeBBox_contains _ bb h q (List.mem_cons_self q qs)
    unfold containsB at hc
    omega

/-- One metadata record is produced per partition. -/
theorem mkMetasAux_length (parts : List (List Point)) :
    ∀ i0, (mkMetasAux i0 parts).length = parts.length := by
  induction parts with
  | nil => intro i0; rfl
  | cons part rest ih => intro i0; simp [mkMetasAux, ih]

/-- Every produced metadata record carries an id below the partition
count (offset by the starting id). -/
theorem mkMetasAux_id_lt (parts : List (List Point)) :
    ∀ i0 pm, pm ∈ mkMetasAux i0 parts → pm.partition_id < i0 + parts.length := by
  induction parts with
  | nil => intro i0 pm hpm; simp [mkMetasAux] at hpm
  | cons part rest ih =>
    intro i0 pm hpm
    rcases List.mem_cons.mp hpm with h | h
    · subst h
      simp only [List.length_cons]
      omega
    · have := ih (i0 + 1) pm h
      simp only [List.length_cons]
      omega

/-- Each metadata record zipped with its data segment records exactly
that segment's bounding box and row count. -/
theorem mkMetasAux_zip_mem (parts : List (List Point)) :
    ∀ i0 pr, pr ∈ (mkMetasAux i0 parts).zip parts →
      pr.1.bbox = computeBBox pr.2 ∧ pr.1.row_count = pr.2.length ∧ pr.2 ∈ parts := by
  induction parts with
  | nil => intro i0 pr hpr; simp [mkMetasAux] at hpr
  | cons part rest ih =>
    intro i0 pr hpr
    simp only [mkMetasAux, List.zip_cons_cons] at hpr
    rcases List.mem_cons.mp hpr with h | h
    · subst h
      exact ⟨rfl, rfl, List.mem_cons_self _ _⟩
    · obtain ⟨h1, h2, h3⟩ := ih (i0 + 1) pr h
      exact ⟨h1, h2, List.mem_cons_of_mem _ h3⟩

/-- Every partition appears in the zip of metadata records with data
segments, with its computed bounding box. -/
theorem mkMetasAux_zip_mem_of_part (parts : List (List Point)) :
    ∀ i0 part, part ∈ parts →
      ∃ pm, (pm, part) ∈ (mkMetasAux i0 parts).zip parts ∧ pm.bbox = computeBBox part := by
  induction parts with
  | nil => intro i0 part hp; simp at hp
  | cons q rest ih =>
    intro i0 part hp
    rcases List.mem_cons.mp hp with h | h
    · subst h
      exact ⟨⟨i0, part.length, computeBBox part⟩,
        by simp [mkMetasAux, List.zip_cons_cons], rfl⟩
    · obtain ⟨pm, hmem, hbb⟩ := ih (i0 + 1) part h
      refine ⟨pm, ?_, hbb⟩
      simp only [mkMetasAux, List.zip_cons_cons]
      exact List.mem_cons_of_mem _ hmem

/-- A box recorded in the accumulator survives the global union fold. -/
theorem foldl_unionO_grows (metas : List PartitionMeta) :
    ∀ (acc : Option BBox) (bb : BBox), acc = some bb →
      ∃ g, metas.foldl (fun acc m => unionO acc m.bbox) acc = some g ∧ boxLe bb g := by
  induction metas with
  | nil =>
    intro acc bb h
    exact ⟨bb, by simp [h], by unfold boxLe; omega⟩
  | cons m ms ih =>
    intro acc bb h
    subst h
    cases hm : m.bbox with
    | none =>
      obtain ⟨g, hg, hle⟩ := ih (some bb) bb rfl
      refine ⟨g, ?_, hle⟩
      rw [List.foldl_cons, hm]
      exact hg
    | some c =>
      obtain ⟨g, hg, hle⟩ := ih (some (bboxUnion bb c)) (bboxUnion bb c) rfl
      refine ⟨g, ?_, boxLe_trans (bboxUnion_le_left bb c) hle⟩
      rw [List.foldl_cons, hm]
      exact hg

/-- Every partition's recorded box is inside the result of the global
union fold. -/
theorem foldl_unionO_mem (metas : List PartitionMeta) :
    ∀ (acc : Option BBox) (pm : PartitionMeta) (bb : BBox), pm ∈ metas → pm.bbox = some bb →
      ∃ g, metas.foldl (fun acc m => unionO acc m.bbox) acc = some g ∧ boxLe bb g := by
  induction metas with
  | nil => intro acc pm bb hpm _; simp at hpm
  | cons m ms ih =>
    intro acc pm bb hpm hbb
    rcases List.mem_cons.mp hpm with h | h
    · subst h
      rw [List.foldl_cons, hbb]
      cases acc with
      | none => exact foldl_unionO_grows ms (some bb) bb rfl
      | some a =>
        obtain ⟨g, hg, hle⟩ := foldl_unionO_grows ms (some (bboxUnion a bb)) (bboxUnion a bb) rfl
        exact ⟨g, hg, boxLe_trans (bboxUnion_le_right a bb) hle⟩
    · rw [List.foldl_cons]
      exact ih _ pm bb h hbb

/-- Every partition's recorded box is inside the global bounding box. -/
theorem globalOf_mem (metas : List PartitionMeta) (pm : PartitionMeta) (bb : BBox)
    (hpm : pm ∈ metas) (hbb : pm.bbox = some bb) :
    ∃ g, globalOf metas = some g ∧ boxLe bb g := by
  exact foldl_unionO_mem metas none pm bb hpm hbb

/-- Characterization of a successful run of the store writer. -/
theorem writeStore_ok (b : Bounds) (pts : List Point) (n : Int) (s : Store)
    (h : writeStore b pts n = .ok s) :
    ∃ parts, partitionPoints b pts n = .ok parts ∧
      s = ⟨parts, some ⟨parts.length, globalOf (mkMetas parts), mkMetas parts⟩⟩ := by
  unfold writeStore at h
  cases hp : partitionPoints b pts n with
  | error e => rw [hp] at h; exact absurd h (by simp)
  | ok parts =>
    rw [hp] at h
    simp only [Except.ok.injEq] at h
    exact ⟨parts, rfl, h.symm⟩

/-- Characterization of a successful open of the reader. -/
theorem openStore_ok (s : Store) (rd : Reader) (h : openStore s = .ok rd) :
    ∃ m, s.meta = some m ∧ rd = ⟨s, m⟩ ∧
      m.numPartitions = s.dataSegments.length ∧ m.partMetas.length = m.numPartitions := by
  unfold openStore at h
  split at h
  · exact absurd h (by simp)
  · rename_i m hm
    split at h
    · rename_i hc
      simp only [Except.ok.injEq] at h
      exact ⟨m, hm, h.symm, hc⟩
    · exact absurd h (by simp)

/-- The Bool intersection test decides the inclusive overlap
inequalities. -/
theorem bboxIntersects_iff (bb : BBox) (r : Rect) :
    bboxIntersects bb r = true ↔
      (bb.xmin ≤ r.xmax ∧ r.xmin ≤ bb.xmax ∧ bb.ymin ≤ r.ymax ∧ r.ymin ≤ bb.ymax) := by
  simp [bboxIntersects, and_assoc]

/-- A box sharing a point with the rectangle intersects it. -/
theorem intersects_of_common_point (bb : BBox) (r : Rect) (p : Point)
    (h1 : containsB bb p) (h2 : inRect r p) : bboxIntersects bb r = true := by
  rw [bboxIntersects_iff]
  unfold containsB at h1
  unfold inRect at h2
  omega

/-- The partitions an opened reader of a written store pairs with its
metadata are exactly the written partitions with their records. -/
theorem reader_pairs (b : Bounds) (pts : List Point) (n : Int) (s : Store) (rd : Reader)
    (hw : writeStore b pts n = .ok s) (ho : openStore s = .ok rd) :
    ∃ parts, partitionPoints b pts n = .ok parts ∧
      rd.partsWithMeta = (mkMetas parts).zip parts ∧
      rd.store.dataSegments = parts ∧
      rd.metadata.partMetas = mkMetas parts ∧
      rd.metadata.globalBBox = globalOf (mkMetas parts) := by
  obtain ⟨parts, hp, hs⟩ := writeStore_ok b pts n s hw
  obtain ⟨m, hm, hrd, -⟩ := openStore_ok s rd ho
  subst hs
  simp only [Option.some.injEq] at hm
  subst hm
  subst hrd
  exact ⟨parts, hp, rfl, rfl, rfl, rfl⟩

/-- Membership in the planner's selection, characterized by the
inclusive-bounds overlap inequalities. -/
theorem mem_selected_iff (rd : Reader) (r : Rect) (pr : PartitionMeta × List Point) :
    pr ∈ (spatial_query rd r).selected ↔
      (pr ∈ rd.partsWithMeta ∧ ∃ bb, pr.1.bbox = some bb ∧
        bb.xmin ≤ r.xmax ∧ r.xmin ≤ bb.xmax ∧ bb.ymin ≤ r.ymax ∧ r.ymin ≤ bb.ymax) := by
  unfold spatial_query
  simp only [List.mem_filter]
  constructor
  · rintro ⟨hmem, hq⟩
    refine ⟨hmem, ?_⟩
    cases hbb : pr.1.bbox with
    | none => rw [hbb] at hq; simp [intersectsO] at hq
    | some bb =>
      rw [hbb] at hq
      exact ⟨bb, rfl, (bboxIntersects_iff bb r).mp hq⟩
  · rintro ⟨hmem, bb, hbb, hineq⟩
    refine ⟨hmem, ?_⟩
    rw [hbb]
    exact (bboxIntersects_iff bb r).mpr hineq

/-- Splitting the partition list by the selection predicate preserves
the flattened row data up to permutation. -/
theorem flatten_filter_split (pairs : List (PartitionMeta × List Point))
    (q : PartitionMeta × List Point → Bool) :
    List.Perm ((((pairs.filter q).map (fun pr => pr.2)).flatten)
        ++ (((pairs.filter (fun pr => !q pr)).map (fun pr => pr.2)).flatten))
      ((pairs.map (fun pr => pr.2)).flatten) := by
  have h1 := (List.filter_append_perm q pairs).map (fun pr => pr.2)
  rw [List.map_append] at h1
  have h2 := h1.flatten
  rw [List.flatten_append] at h2
  exact h2

/-- A partition whose box fails the intersection test holds no point
of the query rectangle. -/
theorem unselected_no_inrect (b : Bounds) (pts : List Point) (n : Int) (s : Store)
    (rd : Reader) (r : Rect) (hw : writeStore b pts n = .ok s) (ho : openStore s = .ok rd)
    (pr : PartitionMeta × List Point) (hmem : pr ∈ rd.partsWithMeta)
    (hq : intersectsO pr.1.bbox r = false) : ∀ p ∈ pr.2, ¬ inRect r p := by
  obtain ⟨parts, -, hpairs, -, -, -⟩ := reader_pairs b pts n s rd hw ho
  rw [hpairs] at hmem
  obtain ⟨hbb, -, -⟩ := mkMetasAux_zip_mem parts 0 pr hmem
  intro p hp hin
  obtain ⟨bb, hsome⟩ := (computeBBox_some_iff pr.2).mpr (List.ne_nil_of_mem hp)
  have hc := computeBBox_contains pr.2 bb hsome p hp
  have htrue := intersects_of_common_point bb r p hc hin
  rw [hbb, hsome] at hq
  simp only [intersectsO] at hq
  rw [htrue] at hq
  exact absurd hq (by simp)

/-- Materializing the planner's view concatenates the selected
partitions' row data. -/
theorem materialize_eq (rd : Reader) (r : Rect) :
    (spatial_query rd r).materialize
      = ((rd.partsWithMeta.filter (fun pr => intersectsO pr.1.bbox r)).map
          (fun pr => pr.2)).flatten := rfl

/-- Every point of the dataset lying in the query rectangle appears in
the materialized view: the planner has no false negatives. -/
theorem query_no_false_negatives (b : Bounds) (pts : List Point) (n : Int) (s : Store)
    (rd : Reader) (r : Rect) (p : Point) (hw : writeStore b pts n = .ok s)
    (ho : openStore s = .ok rd) (hp : p ∈ pts) (hin : inRect r p) :
    p ∈ (spatial_query rd r).materialize := by
  obtain ⟨parts, hpart, hpairs, -, -, -⟩ := reader_pairs b pts n s rd hw ho
  have hperm := partitionPoints_flatten_perm b pts n parts hpart
  have hpf : p ∈ parts.flatten := (hperm.mem_iff).mpr hp
  obtain ⟨part, hpartmem, hppart⟩ := List.mem_flatten.mp hpf
  obtain ⟨pm, hzip, hbb⟩ := mkMetasAux_zip_mem_of_part parts 0 part hpartmem
  obtain ⟨bb, hsome⟩ := (computeBBox_some_iff part).mpr (List.ne_nil_of_mem hppart)
  have hc := computeBBox_contains part bb hsome p hppart
  have hq : intersectsO pm.bbox r = true := by
    rw [hbb, hsome]
    exact intersects_of_common_point bb r p hc hin
  rw [materialize_eq, hpairs]
  refine List.mem_flatten.mpr ⟨part, ?_, hppart⟩
  exact List.mem_map.mpr ⟨(pm, part), List.mem_filter.mpr ⟨hzip, hq⟩, rfl⟩

/-- The flattened data of all partitions of the opened reader is a
permutation of the original dataset. -/
theorem reader_flatten_perm (b : Bounds) (pts : List Point) (n : Int) (s : Store)
    (rd : Reader) (hw : writeStore b pts n = .ok s) (ho : openStore s = .ok rd) :
    List.Perm ((rd.partsWithMeta.map (fun pr => pr.2)).flatten) pts := by
  obtain ⟨parts, hpart, hpairs, -, -, -⟩ := reader_pairs b pts n s rd hw ho
  rw [hpairs]
  rw [List.map_snd_zip (mkMetas parts) parts (by unfold mkMetas; rw [mkMetasAux_length]) ]
  exact partitionPoints_flatten_perm b pts n parts hpart

/-- Restricting to the query rectangle, the materialized pruned view
holds exactly the same rows as the full dataset. -/
theorem materialize_filter_perm (b : Bounds) (pts : List Point) (n : Int) (s : Store)
    (rd : Reader) (r : Rect) (hw : writeStore b pts n = .ok s)
    (ho : openStore s = .ok rd) :
    List.Perm (((spatial_query rd r).materialize).filter (fun p => decide (inRect r p)))
      (pts.filter (fun p => decide (inRect r p))) := by
  have hsplit := flatten_filter_split rd.partsWithMeta (fun pr => intersectsO pr.1.bbox r)
  have hall := reader_flatten_perm b pts n s rd hw ho
  have hperm := hsplit.trans hall
  have hfil := hperm.filter (fun p => decide (inRect r p))
  rw [List.filter_append] at hfil
  have hnil : (((rd.partsWithMeta.filter
      (fun pr => !(intersectsO pr.1.bbox r))).map (fun pr => pr.2)).flatten).filter
        (fun p => decide (inRect r p)) = [] := by
    rw [List.filter_eq_nil_iff]
    intro a ha
    obtain ⟨part, hpl, hal⟩ := List.mem_flatten.mp ha
    obtain ⟨pr, hprmem, hpr2⟩ := List.mem_map.mp hpl
    have hmem := (List.mem_filter.mp hprmem).1
    have hq : intersectsO pr.1.bbox r = false := by
      have := (List.mem_filter.mp hprmem).2
      simp only [Bool.not_eq_true'] at this
      exact this
    have hno := unselected_no_inrect b pts n s rd r hw ho pr hmem hq a (hpr2 ▸ hal)
    simp [hno]
  rw [hnil, List.append_nil] at hfil
  rw [materialize_eq]
  exact hfil

/-- Materializing a query covering the full global extent yields the
whole dataset up to permutation. -/
theorem full_extent_materialize_perm (b : Bounds) (pts : List Point) (n : Int)
    (s : Store) (rd : Reader) (g : BBox) (hw : writeStore b pts n = .ok s)
    (ho : openStore s = .ok rd) (hg : rd.metadata.globalBBox = some g) :
    List.Perm ((spatial_query rd (fullExtentRect g)).materialize) pts := by
  obtain ⟨parts, hpart, hpairs, -, -, hglob⟩ := reader_pairs b pts n s rd hw ho
  have hempty : ∀ pr ∈ rd.partsWithMeta,
      intersectsO pr.1.bbox (fullExtentRect g) = false → pr.2 = [] := by
    rintro ⟨pm, part⟩ hmem hq
    by_contra hne
    obtain ⟨bb, hsome⟩ := (computeBBox_some_iff part).mpr hne
    rw [hpairs] at hmem
    obtain ⟨hbb, -, -⟩ := mkMetasAux_zip_mem parts 0 (pm, part) hmem
    have hpm1 : pm ∈ mkMetas parts := (List.of_mem_zip hmem).1
    obtain ⟨g2, hg2, hle⟩ := globalOf_mem (mkMetas parts) pm bb hpm1 (hbb.trans hsome)
    have hgg : g2 = g := by
      rw [hglob, hg2] at hg
      exact (Option.some.injEq _ _ ▸ hg)
    subst hgg
    have hwf := computeBBox_wf part bb hsome
    have htrue : bboxIntersects bb (fullExtentRect g2) = true := by
      rw [bboxIntersects_iff]
      unfold boxLe at hle
      unfold fullExtentRect
      simp only
      omega
    simp only at hq
    rw [hbb.trans hsome] at hq
    simp only [intersectsO] at hq
    rw [htrue] at hq
    exact absurd hq (by simp)
  have hnilB : ((rd.partsWithMeta.filter
      (fun pr => !(intersectsO pr.1.bbox (fullExtentRect g)))).map (fun pr => pr.2)).flatten = [] := by
    rw [List.flatten_eq_nil_iff]
    intro part hpl
    obtain ⟨pr, hprmem, hpr2⟩ := List.mem_map.mp hpl
    have hmem := (List.mem_filter.mp hprmem).1
    have hq : intersectsO pr.1.bbox (fullExtentRect g) = false := by
      have := (List.mem_filter.mp hprmem).2
      simp only [Bool.not_eq_true'] at this
      exact this
    rw [← hpr2]
    exact hempty pr hmem hq
  have hsplit := flatten_filter_split rd.partsWithMeta
    (fun pr => intersectsO pr.1.bbox (fullExtentRect g))
  rw [hnilB, List.append_nil] at hsplit
  rw [materialize_eq]
  exact hsplit.trans (reader_flatten_perm b pts n s rd hw ho)

/-- C1: for every persisted dataset and every query rectangle, the
Range Query Planner selects exactly the partitions whose bounding box
intersects the rectangle, with inclusive bounds (a touching edge
counts as overlap), and every dataset point whose coordinates lie in
the rectangle is contained in the union of the selected partitions
(no false negatives). -/
theorem planner_exact_and_no_false_negatives
    (b : Bounds) (pts : List Point) (n : Int) (s : Store) (rd : Reader) (r : Rect)
    (hw : writeStore b pts n = .ok s) (ho : openStore s = .ok rd) :
    (∀ pr, pr ∈ (spatial_query rd r).selected ↔
      (pr ∈ rd.partsWithMeta ∧ ∃ bb, pr.1.bbox = some bb ∧
        bb.xmin ≤ r.xmax ∧ r.xmin ≤ bb.xmax ∧ bb.ymin ≤ r.ymax ∧ r.ymin ≤ bb.ymax)) ∧
    (∀ p ∈ pts, inRect r p → p ∈ (spatial_query rd r).materialize) :=
  ⟨fun pr => mem_selected_iff rd r pr,
   fun p hp hin => query_no_false_negatives b pts n s rd r p hw ho hp hin⟩

/-- C1 witness: in the concrete scenario, the point at x = 1 lies in
the query rectangle and is found in the materialized selection. -/
theorem planner_exact_and_no_false_negatives_witness :
    (⟨1, 0, 0⟩ : Point) ∈ (spatial_query scenarioRd scenarioRect).materialize := by
  have h := planner_exact_and_no_false_negatives scenarioBounds scenarioPts 2
    scenarioStore scenarioRd scenarioRect rfl rfl
  exact h.2 ⟨1, 0, 0⟩ (by decide) (by decide)

/-- C2: partitioning a point set into a valid number of groups loses
no point and duplicates no point: the partitions flatten to a
permutation (multiset equality) of the input, and for a duplicate-free
point set the partitions are pairwise disjoint. -/
theorem partition_union_disjoint (b : Bounds) (pts : List Point) (n : Int)
    (parts : List (List Point)) (h : partitionPoints b pts n = .ok parts) :
    List.Perm parts.flatten pts ∧ (pts.Nodup → parts.Pairwise List.Disjoint) := by
  refine ⟨partitionPoints_flatten_perm b pts n parts h, fun hnd => ?_⟩
  have hflat : parts.flatten.Nodup :=
    ((partitionPoints_flatten_perm b pts n parts h).nodup_iff).mpr hnd
  exact (List.nodup_flatten.mp hflat).2

/-- C2 witness: the scenario's two partitions flatten to a permutation
of the six input points and are pairwise disjoint. -/
theorem partition_union_disjoint_witness :
    List.Perm scenarioParts.flatten scenarioPts ∧ scenarioParts.Pairwise List.Disjoint := by
  have h := partition_union_disjoint scenarioBounds scenarioPts 2 scenarioParts rfl
  exact ⟨h.1, h.2 (by decide)⟩

/-- C3: for every partition produced at write time, the stored
bounding box contains every point of the partition, and it is minimal:
it fits inside every axis-aligned box containing all the partition's
points. -/
theorem partition_bbox_contains_minimal (b : Bounds) (pts : List Point) (n : Int)
    (s : Store) (hw : writeStore b pts n = .ok s) (m : Metadata) (hm : s.meta = some m)
    (pr : PartitionMeta × List Point) (hpr : pr ∈ m.partMetas.zip s.dataSegments) :
    (∀ p ∈ pr.2, ∃ bb, pr.1.bbox = some bb ∧ containsB bb p) ∧
    (∀ bb bb2, pr.1.bbox = some bb → (∀ p ∈ pr.2, containsB bb2 p) → boxLe bb bb2) := by
  obtain ⟨parts, -, hs⟩ := writeStore_ok b pts n s hw
  subst hs
  simp only [Option.some.injEq] at hm
  subst hm
  simp only at hpr
  obtain ⟨hbb, -, -⟩ := mkMetasAux_zip_mem parts 0 pr hpr
  constructor
  · intro p hp
    obtain ⟨bb, hsome⟩ := (computeBBox_some_iff pr.2).mpr (List.ne_nil_of_mem hp)
    exact ⟨bb, hbb.trans hsome, computeBBox_contains pr.2 bb hsome p hp⟩
  · intro bb bb2 hsome hall
    exact computeBBox_least pr.2 bb bb2 (hbb.symm.trans hsome) hall

/-- C3 witness: the scenario's low-x partition box fits inside a
larger box containing its three points. -/
theorem partition_bbox_contains_minimal_witness :
    boxLe ⟨1, 3, 0, 0⟩ ⟨0, 5, -1, 1⟩ := by
  have h := partition_bbox_contains_minimal scenarioBounds scenarioPts 2
    scenarioStore rfl scenarioMeta rfl
    (⟨0, 3, some ⟨1, 3, 0, 0⟩⟩, [⟨1, 0, 0⟩, ⟨2, 0, 2⟩, ⟨3, 0, 4⟩]) (by decide)
  exact h.2 ⟨1, 3, 0, 0⟩ ⟨0, 5, -1, 1⟩ rfl (by decide)

/-- C4: round-trip: writing a point set, opening the store and
materializing a query over the full global extent yields the original
point set as a multiset (a permutation; row order may differ). -/
theorem roundtrip_full_extent (b : Bounds) (pts : List Point) (n : Int) (s : Store)
    (rd : Reader) (g : BBox) (hw : writeStore b pts n = .ok s)
    (ho : openStore s = .ok rd) (hg : rd.metadata.globalBBox = some g) :
    List.Perm ((spatial_query rd (fullExtentRect g)).materialize) pts :=
  full_extent_materialize_perm b pts n s rd g hw ho hg

/-- C4 witness: the scenario round-trips: a full-extent query
materializes a permutation of the six original points. -/
theorem roundtrip_full_extent_witness :
    List.Perm ((spatial_query scenarioRd (fullExtentRect ⟨1, 12, 0, 0⟩)).materialize)
      scenarioPts :=
  roundtrip_full_extent scenarioBounds scenarioPts 2 scenarioStore scenarioRd
    ⟨1, 12, 0, 0⟩ rfl rfl rfl

/-- C5: the global x-range and y-range exposed by the reader equal the
union of the per-partition bounding boxes recorded in metadata, and
they are a function of the metadata alone: two readers with the same
metadata expose the same extents whatever their row data. -/
theorem reader_extents_from_metadata (b : Bounds) (pts : List Point) (n : Int)
    (s : Store) (rd : Reader) (hw : writeStore b pts n = .ok s)
    (ho : openStore s = .ok rd) :
    rd.x_range = (globalOf rd.metadata.partMetas).map (fun g => (g.xmin, g.xmax)) ∧
    rd.y_range = (globalOf rd.metadata.partMetas).map (fun g => (g.ymin, g.ymax)) ∧
    (∀ rd2 : Reader, rd2.metadata = rd.metadata →
      rd2.x_range = rd.x_range ∧ rd2.y_range = rd.y_range) := by
  obtain ⟨parts, -, -, -, hmetas, hglob⟩ := reader_pairs b pts n s rd hw ho
  refine ⟨?_, ?_, ?_⟩
  · unfold Reader.x_range xRangeOf
    rw [hglob, hmetas]
  · unfold Reader.y_range yRangeOf
    rw [hglob, hmetas]
  · intro rd2 h
    unfold Reader.x_range Reader.y_range
    rw [h]
    exact ⟨rfl, rfl⟩

/-- C5 witness: the scenario reader reports x-range 1 to 12 and
y-range 0 to 0, the union of the two partition boxes. -/
theorem reader_extents_from_metadata_witness :
    scenarioRd.x_range = some (1, 12) ∧ scenarioRd.y_range = some (0, 0) := by
  have h := reader_extents_from_metadata scenarioBounds scenarioPts 2
    scenarioStore scenarioRd rfl rfl
  exact ⟨h.1.trans (by decide), h.2.1.trans (by decide)⟩

/-- C6 counterexample: with zero points and a nonpositive partition
count the Partitioner/Sorter fails with InvalidPartitionCount, not
EmptyDataset, so the unconditional claim that it fails with
EmptyDataset if and only if the input has zero points is false. -/
theorem partitioner_empty_iff_counterexample :
    ([] : List Point) = [] ∧
    partitionPoints scenarioBounds [] (-1) ≠ .error .EmptyDataset ∧
    partitionPoints scenarioBounds [] (-1) = .error .InvalidPartitionCount := by
  refine ⟨rfl, ?_, rfl⟩
  intro h
  simp [partitionPoints] at h

/-- C6 (amended): the Partitioner/Sorter fails with
InvalidPartitionCount exactly when the requested count is nonpositive;
it fails with EmptyDataset exactly when the count is positive and the
input has zero points (the count check comes first); for every
positive count and nonempty input it succeeds. -/
theorem partitioner_error_conditions (b : Bounds) (pts : List Point) (n : Int) :
    (partitionPoints b pts n = .error .InvalidPartitionCount ↔ n ≤ 0) ∧
    (partitionPoints b pts n = .error .EmptyDataset ↔ (0 < n ∧ pts = [])) ∧
    ((0 < n ∧ pts ≠ []) → ∃ parts, partitionPoints b pts n = .ok parts) := by
  unfold partitionPoints
  by_cases h1 : n ≤ 0
  · rw [if_pos h1]
    refine ⟨Iff.intro (fun _ => h1) (fun _ => rfl),
      Iff.intro (fun h => by simp at h) (fun hc => absurd hc.1 (by omega)),
      fun hc => absurd hc.1 (by omega)⟩
  · rw [if_neg h1]
    by_cases h2 : pts.isEmpty
    · rw [if_pos h2]
      have hnil : pts = [] := by simpa [List.isEmpty_iff] using h2
      refine ⟨Iff.intro (fun h => by simp at h) (fun hn => absurd hn h1),
        Iff.intro (fun _ => ⟨by omega, hnil⟩) (fun _ => rfl),
        fun hc => absurd hnil hc.2⟩
    · rw [if_neg h2]
      have hne : pts ≠ [] := by simpa [List.isEmpty_iff] using h2
      refine ⟨Iff.intro (fun h => by simp at h) (fun hn => absurd hn h1),
        Iff.intro (fun h => by simp at h) (fun hc => absurd hc.2 hne),
        fun hc => ⟨_, rfl⟩⟩

/-- C6 witness: a nonpositive count is rejected with
InvalidPartitionCount and the scenario input with count 2 succeeds. -/
theorem partitioner_error_conditions_witness :
    partitionPoints scenarioBounds scenarioPts 0 = .error .InvalidPartitionCount ∧
    ∃ parts, partitionPoints scenarioBounds scenarioPts 2 = .ok parts :=
  ⟨(partitioner_error_conditions scenarioBounds scenarioPts 0).1.mpr (by decide),
   (partitioner_error_conditions scenarioBounds scenarioPts 2).2.2 ⟨by decide, by decide⟩⟩

/-- C7: write atomicity: the staged write persists all data segments
before the metadata record, so at every abort point, if metadata is
visible at all then every partition it references has its data segment
present in the store. -/
theorem write_atomicity (b : Bounds) (pts : List Point) (n : Int) (s : Store)
    (hw : writeStore b pts n = .ok s) (m : Metadata) (hm : s.meta = some m)
    (k : Nat) (m2 : Metadata)
    (habort : (storeAfterSteps s.dataSegments m k).meta = some m2) :
    (storeAfterSteps s.dataSegments m k).dataSegments = s.dataSegments ∧
    ∀ pm ∈ m2.partMetas,
      pm.partition_id < (storeAfterSteps s.dataSegments m k).dataSegments.length := by
  obtain ⟨parts, -, hs⟩ := writeStore_ok b pts n s hw
  subst hs
  simp only [Option.some.injEq] at hm
  simp only [storeAfterSteps] at habort ⊢
  by_cases hk : parts.length < k
  · rw [if_pos hk] at habort
    simp only [Option.some.injEq] at habort
    subst habort
    have htake : parts.take k = parts := List.take_of_length_le (Nat.le_of_lt hk)
    refine ⟨htake, ?_⟩
    intro pm hpm
    rw [← hm] at hpm
    simp only at hpm
    have hlt := mkMetasAux_id_lt parts 0 pm hpm
    rw [htake]
    omega
  · rw [if_neg hk] at habort
    exact absurd habort (by simp)

/-- C7 witness: aborting the scenario's write after all data steps and
the metadata step leaves a complete store whose metadata references
only present partitions. -/
theorem write_atomicity_witness :
    (storeAfterSteps scenarioStore.dataSegments scenarioMeta 3).dataSegments
      = scenarioStore.dataSegments := by
  have h := write_atomicity scenarioBounds scenarioPts 2 scenarioStore rfl
    scenarioMeta rfl 3 scenarioMeta rfl
  exact h.1

/-- C8: the concrete scenario: six points with x in 1, 2, 3, 10, 11,
12 partitioned with count 2 produce two partitions of three points
each, the low-x partition has box with xmax 3, the high-x partition
has box with xmin 10, and the query rectangle with x range 0 to 4
selects only the low-x partition. -/
theorem scenario_partitions_and_query :
    scenarioParts.map (fun part => part.map Point.x) = [[1, 2, 3], [10, 11, 12]] ∧
    scenarioParts.map List.length = [3, 3] ∧
    (scenarioStore.meta.map (fun m => m.partMetas.map (fun pm => pm.bbox)))
      = some [some ⟨1, 3, 0, 0⟩, some ⟨10, 12, 0, 0⟩] ∧
    (spatial_query scenarioRd scenarioRect).selected.map (fun pr => pr.1.partition_id)
      = [0] := by
  decide

/-- C9: the Curve Mapper is deterministic and total; inside the
declared bounds it returns the curve index; outside them it either
clamps to the nearest boundary or fails with OutOfBounds according to
the configured policy, and OutOfBounds is the only error it can
produce. -/
theorem curveMapper_deterministic_total (pol : OOBPolicy) (b : Bounds) (x y : Int) :
    curveMap pol b x y = curveMap pol b x y ∧
    (inBounds b x y → curveMap pol b x y = .ok (curveIndex b x y)) ∧
    (¬ inBounds b x y → pol = .clamp →
      curveMap pol b x y
        = .ok (curveIndex b (clampTo b.xmin b.xmax x) (clampTo b.ymin b.ymax y))) ∧
    (¬ inBounds b x y → pol = .fail → curveMap pol b x y = .error .OutOfBounds) ∧
    (∀ e, curveMap pol b x y = .error e → e = .OutOfBounds) := by
  refine ⟨rfl, ?_, ?_, ?_, ?_⟩
  · intro h
    simp [curveMap, h]
  · intro h hpol
    subst hpol
    simp [curveMap, h]
  · intro h hpol
    subst hpol
    simp [curveMap, h]
  · intro e he
    unfold curveMap at he
    by_cases h : inBounds b x y
    · rw [if_pos h] at he
      exact absurd he (by simp)
    · rw [if_neg h] at he
      cases pol with
      | clamp => exact absurd he (by simp)
      | fail =>
        simp only [Except.error.injEq] at he
        exact he.symm

/-- C9 witness: a point outside the bounds fails with OutOfBounds
under the fail policy. -/
theorem curveMapper_deterministic_total_witness :
    curveMap .fail ⟨0, 10, 0, 10⟩ 20 5 = .error .OutOfBounds :=
  (curveMapper_deterministic_total .fail ⟨0, 10, 0, 10⟩ 20 5).2.2.2.1 (by decide) rfl

/-- C10: aggregating with a canvas restricted to the query rectangle
over the lazy view returned by spatial_query equals aggregating the
full dataset with the same canvas: spatial pruning never changes the
rendered result within the viewport. -/
theorem pruned_aggregation_equiv (b : Bounds) (pts : List Point) (n : Int) (s : Store)
    (rd : Reader) (hw : writeStore b pts n = .ok s) (ho : openStore s = .ok rd)
    (r : Rect) (w hgt : Nat) :
    canvasAgg r w hgt ((spatial_query rd r).materialize) = canvasAgg r w hgt pts := by
  unfold canvasAgg
  have hperm := (materialize_filter_perm b pts n s rd r hw ho).map (pixelOf r w hgt)
  exact Multiset.coe_eq_coe.mpr hperm

/-- C10 witness: in the scenario, a 4 by 4 canvas over the pruned view
aggregates identically to the full dataset. -/
theorem pruned_aggregation_equiv_witness :
    canvasAgg scenarioRect 4 4 ((spatial_query scenarioRd scenarioRect).materialize)
      = canvasAgg scenarioRect 4 4 scenarioPts :=
  pruned_aggregation_equiv scenarioBounds scenarioPts 2 scenarioStore scenarioRd
    rfl rfl scenarioRect 4 4

end DSPoints
